import Mathlib

/-!
Verification of the Go-Back-N video-streaming implementation
(`streaming_app`): a shallow embedding of the protocol code in Lean 4
together with theorems settling the specification's claims.

Conventions:
* Python byte strings are `List Nat`, each element a byte value `< 256`.
* Machine integers are `Nat`, with explicit `% 65536` (sequence numbers)
  where the code wraps.
* Python dicts (which preserve insertion order) are association lists
  `List (Nat × β)` with unique keys; assignment replaces in place or
  appends.
* Randomness (`random.random()`) and the loss model's verdicts are passed
  in as explicit oracles.
-/

namespace Streaming

/-! ## Checksum (`GBNUtilities.compute_checksum`) -/

/-- The 16-bit words the checksum loop forms: `data[i] << 8` plus the
following byte when present (the loop walks the data two bytes at a
time; a trailing lone byte becomes the high byte of a final word). -/
def sections : List Nat → List Nat
  | [] => []
  | [a] => [a <<< 8]
  | a :: b :: rest => ((a <<< 8) + b) :: sections rest

/-- The running one's-complement accumulation:
`checksum += section; checksum = (checksum & 0xFFFF) + (checksum >> 16)`. -/
def foldCarry : Nat → List Nat → Nat
  | c, [] => c
  | c, s :: rest => foldCarry (((c + s) &&& 0xFFFF) + ((c + s) >>> 16)) rest

/-- Python's `~c & 0xFFFF` for a nonnegative int `c` equals
`0xFFFF - (c % 0x10000)` (bitwise complement of the low 16 bits). -/
def invert16 (c : Nat) : Nat := 0xFFFF - c % 0x10000

/-- `GBNUtilities.compute_checksum(data)`. -/
def compute_checksum (data : List Nat) : Nat :=
  invert16 (foldCarry 0 (sections data))

/-- The receiver's checksum check (`calc != pkt_checksum` drops the
packet): verification recomputes and compares. -/
def verify (data : List Nat) (ck : Nat) : Bool :=
  compute_checksum data == ck

/-- `struct.pack('!H', seq)`: two big-endian bytes. -/
def seqBytes (s : Nat) : List Nat := [s / 256 % 256, s % 256]

/-- Flip bit `m` of byte `j` of a byte string (`b[j] ^ (1 << m)`). -/
def flipBit (l : List Nat) (j m : Nat) : List Nat :=
  l.set j ((l.getD j 0) ^^^ (1 <<< m))

/-- Induction two list elements at a time, matching `sections`. -/
theorem list_pair_ind {P : List Nat → Prop} (h0 : P []) (h1 : ∀ a, P [a])
    (h2 : ∀ a b t, P t → P (a :: b :: t)) : ∀ l, P l := by
  have key : ∀ n l, List.length l ≤ n → P l := by
    intro n
    induction n with
    | zero =>
      intro l hl
      cases l with
      | nil => exact h0
      | cons a t => simp at hl
    | succ n ih =>
      intro l hl
      cases l with
      | nil => exact h0
      | cons a t =>
        cases t with
        | nil => exact h1 a
        | cons b t' =>
          refine h2 a b t' (ih t' ?_)
          simp [List.length] at hl ⊢
          omega
  exact fun l => key l.length l le_rfl

theorem sections_le (l : List Nat) (hl : ∀ x ∈ l, x < 256) :
    ∀ s ∈ sections l, s ≤ 0xFFFF := by
  induction l using list_pair_ind with
  | h0 => simp [sections]
  | h1 a =>
    simp only [sections, List.mem_singleton]
    intro s hs
    have ha := hl a (by simp)
    subst hs
    simp [Nat.shiftLeft_eq]
    omega
  | h2 a b t ih =>
    simp only [sections, List.mem_cons]
    intro s hs
    have ha := hl a (by simp)
    have hb := hl b (by simp)
    rcases hs with h | h
    · subst h; simp [Nat.shiftLeft_eq]; omega
    · exact ih (fun x hx => hl x (by simp [hx])) s h

theorem foldCarry_le (l : List Nat) : ∀ c, c ≤ 0xFFFF → (∀ s ∈ l, s ≤ 0xFFFF) →
    foldCarry c l ≤ 0xFFFF := by
  induction l with
  | nil => intro c hc _; simpa [foldCarry] using hc
  | cons s rest ih =>
    intro c hc hl
    have hs := hl s (by simp)
    simp only [foldCarry]
    refine ih _ ?_ (fun x hx => hl x (by simp [hx]))
    have h1 : (c + s) &&& 0xFFFF = (c + s) % 65536 := by
      have := Nat.and_pow_two_sub_one_eq_mod (c + s) 16
      norm_num at this ⊢
      omega
    have h2 : (c + s) >>> 16 = (c + s) / 65536 := by
      have := Nat.shiftRight_eq_div_pow (c + s) 16
      norm_num at this ⊢
      omega
    rw [h1, h2]
    norm_num at hc hs ⊢
    omega

theorem foldCarry_modeq (l : List Nat) :
    ∀ c, foldCarry c l % 65535 = (c + l.sum) % 65535 := by
  induction l with
  | nil => intro c; simp [foldCarry]
  | cons s rest ih =>
    intro c
    simp only [foldCarry, List.sum_cons]
    rw [ih]
    have h1 : (c + s) &&& 0xFFFF = (c + s) % 65536 := by
      have := Nat.and_pow_two_sub_one_eq_mod (c + s) 16
      norm_num at this ⊢
      omega
    have h2 : (c + s) >>> 16 = (c + s) / 65536 := by
      have := Nat.shiftRight_eq_div_pow (c + s) 16
      norm_num at this ⊢
      omega
    rw [h1, h2]
    omega

/-- Big-endian/low-byte weight of byte position `j` in the checksum sum. -/
def byteWeight (j : Nat) : Nat := if j % 2 = 0 then 256 else 1

theorem sections_sum_set (l : List Nat) :
    ∀ j v (hj : j < l.length),
      (sections (l.set j v)).sum + (l.get ⟨j, hj⟩) * byteWeight j
        = (sections l).sum + v * byteWeight j := by
  induction l using list_pair_ind with
  | h0 => intro j v hj; simp at hj
  | h1 a =>
    intro j v hj
    simp only [List.length_singleton] at hj
    interval_cases j
    simp [sections, byteWeight, Nat.shiftLeft_eq]
    try omega
  | h2 a b t ih =>
    intro j v hj
    match j with
    | 0 =>
      simp [sections, byteWeight, Nat.shiftLeft_eq]
      try omega
    | 1 =>
      simp [sections, byteWeight, Nat.shiftLeft_eq]
      try omega
    | Nat.succ (Nat.succ k) =>
      have hk : k < t.length := by
        simp [List.length] at hj
        omega
      have := ih k v hk
      have hw : byteWeight (k + 2) = byteWeight k := by
        simp [byteWeight]
        try omega
      simp only [List.set, sections, List.sum_cons, List.get_cons_succ, hw]
      omega

set_option maxRecDepth 10000 in
theorem xorFlipByte : ∀ x, x < 256 → ∀ m, m < 8 →
    (x ^^^ (1 <<< m) < 256
      ∧ (x ^^^ (1 <<< m) = x + 2 ^ m ∨ x = (x ^^^ (1 <<< m)) + 2 ^ m)) := by
  decide

theorem byteWeight_pow (j : Nat) : ∃ e ≤ 8, byteWeight j = 2 ^ e := by
  by_cases h : j % 2 = 0
  · exact ⟨8, by omega, by simp [byteWeight, h]⟩
  · exact ⟨0, by omega, by simp [byteWeight, h]⟩

theorem coprime_65535_pow (k : Nat) : ¬ (65535 ∣ 2 ^ k) := by
  intro hdvd
  have hco : Nat.Coprime 65535 2 := by decide
  have := (hco.pow_right k).eq_one_of_dvd hdvd
  omega

/-- Flipping one bit of one byte changes the computed checksum. -/
theorem compute_checksum_flipBit (b : List Nat) (hb : ∀ x ∈ b, x < 256)
    (j m : Nat) (hj : j < b.length) (hm : m < 8) :
    compute_checksum (flipBit b j m) ≠ compute_checksum b := by
  have hold : b.get ⟨j, hj⟩ < 256 := hb _ (List.get_mem b j hj)
  obtain ⟨hlt, hrel⟩ := xorFlipByte (b.get ⟨j, hj⟩) hold m hm
  have hset : flipBit b j m = b.set j ((b.get ⟨j, hj⟩) ^^^ (1 <<< m)) := by
    simp [flipBit, List.get_eq_getElem, List.getD_eq_getElem?_getD,
      List.getElem?_eq_getElem hj]
  have hb' : ∀ x ∈ flipBit b j m, x < 256 := by
    rw [hset]
    intro x hx
    rcases List.mem_or_eq_of_mem_set hx with h | h
    · exact hb x h
    · subst h; exact hlt
  have hsum := sections_sum_set b j ((b.get ⟨j, hj⟩) ^^^ (1 <<< m)) hj
  have hFle : foldCarry 0 (sections b) ≤ 0xFFFF :=
    foldCarry_le _ 0 (by norm_num) (sections_le b hb)
  have hFle' : foldCarry 0 (sections (flipBit b j m)) ≤ 0xFFFF :=
    foldCarry_le _ 0 (by norm_num) (sections_le _ hb')
  have hFmod := foldCarry_modeq (sections b) 0
  have hFmod' := foldCarry_modeq (sections (flipBit b j m)) 0
  intro heq
  have hFeq : foldCarry 0 (sections (flipBit b j m)) = foldCarry 0 (sections b) := by
    simp only [compute_checksum, invert16] at heq
    norm_num at hFle hFle'
    omega
  have hSmod : (sections (flipBit b j m)).sum % 65535 = (sections b).sum % 65535 := by
    omega
  obtain ⟨e, he, hwe⟩ := byteWeight_pow j
  rw [hset] at hSmod
  have hpow : 2 ^ m * byteWeight j = 2 ^ (m + e) := by
    rw [hwe, ← pow_add]
  have hposD : 0 < 2 ^ (m + e) := Nat.pos_pow_of_pos _ (by norm_num)
  rcases hrel with h | h
  · -- the flipped byte is larger by 2 ^ m
    have hvw : (b.get ⟨j, hj⟩ ^^^ 1 <<< m) * byteWeight j
        = b.get ⟨j, hj⟩ * byteWeight j + 2 ^ (m + e) := by
      rw [h, ← hpow]; ring
    have hS : (sections (b.set j ((b.get ⟨j, hj⟩) ^^^ (1 <<< m)))).sum
        = (sections b).sum + 2 ^ (m + e) := by
      linarith [hsum, hvw]
    rw [hS] at hSmod
    have hmodeq : (sections b).sum ≡ (sections b).sum + 2 ^ (m + e) [MOD 65535] := by
      unfold Nat.ModEq
      omega
    exact coprime_65535_pow (m + e)
      (by simpa using (Nat.modEq_iff_dvd' (Nat.le_add_right _ _)).mp hmodeq)
  · -- the flipped byte is smaller by 2 ^ m
    have hvw : b.get ⟨j, hj⟩ * byteWeight j
        = (b.get ⟨j, hj⟩ ^^^ 1 <<< m) * byteWeight j + 2 ^ (m + e) := by
      conv_lhs => rw [h]
      rw [← hpow]; ring
    have hS : (sections b).sum
        = (sections (b.set j ((b.get ⟨j, hj⟩) ^^^ (1 <<< m)))).sum + 2 ^ (m + e) := by
      linarith [hsum, hvw]
    rw [hS] at hSmod
    have hmodeq : (sections (b.set j ((b.get ⟨j, hj⟩) ^^^ (1 <<< m)))).sum
        ≡ (sections (b.set j ((b.get ⟨j, hj⟩) ^^^ (1 <<< m)))).sum + 2 ^ (m + e)
          [MOD 65535] := by
      unfold Nat.ModEq
      omega
    exact coprime_65535_pow (m + e)
      (by simpa using (Nat.modEq_iff_dvd' (Nat.le_add_right _ _)).mp hmodeq)

/-- C4: checksum round-trip and single-bit error detection. Recomputing
`compute_checksum(b)` and comparing it against the stored value
`compute_checksum(b)` succeeds for every byte string (so the receiver's
check accepts any packet whose checksum field equals
`compute_checksum(seq_bytes + payload)`), and flipping a single bit of a
byte string changes the computed checksum, making verification fail. -/
theorem claim_C4 :
    (∀ b, verify b (compute_checksum b) = true)
    ∧ (∀ seq payload, verify (seqBytes seq ++ payload)
        (compute_checksum (seqBytes seq ++ payload)) = true)
    ∧ (∀ b, (∀ x ∈ b, x < 256) → ∀ j m, j < b.length → m < 8 →
        verify (flipBit b j m) (compute_checksum b) = false) := by
  refine ⟨fun b => by simp [verify], fun seq payload => by simp [verify], ?_⟩
  intro b hb j m hj hm
  have hne := compute_checksum_flipBit b hb j m hj hm
  simp [verify, hne]

/-- Witness for C4 at a concrete byte string and bit position. -/
theorem claim_C4_witness :
    verify [104, 105] (compute_checksum [104, 105]) = true
      ∧ verify (flipBit [104, 105] 1 3) (compute_checksum [104, 105]) = false :=
  ⟨claim_C4.1 [104, 105],
    claim_C4.2.2 [104, 105] (by decide) 1 3 (by decide) (by decide)⟩

/-! ## GBN receiver (`GBNReceiver.recv`): per-datagram step -/

/-- `GBNUtilities.deserialize_packet`: reject datagrams shorter than the
4-byte header, otherwise split into big-endian `(seq_num, checksum)` and
the payload. -/
def deserialize_packet (raw : List Nat) : Option (Nat × Nat × List Nat) :=
  if raw.length < 4 then none
  else some (raw.getD 0 0 * 256 + raw.getD 1 0,
             raw.getD 2 0 * 256 + raw.getD 3 0,
             raw.drop 4)

/-- What `GBNReceiver.recv` does with one arriving datagram. -/
inductive RecvAction where
  | ignored : RecvAction
  | corruptDropped : RecvAction
  | delivered (ackSent : Nat) (payload : List Nat) : RecvAction
  | reacked (ackSent : Nat) : RecvAction
deriving DecidableEq

/-- One iteration of the `GBNReceiver.recv` loop on a received datagram:
malformed packets are ignored, checksum mismatches dropped, the expected
sequence is ACKed and delivered (advancing `expected`), and any other
sequence (the duplicate branch and the out-of-order branch of the source)
is dropped with a re-ACK of `(expected - 1) % 65536`. -/
def recvStep (expected : Nat) (raw : List Nat) : RecvAction × Nat :=
  match deserialize_packet raw with
  | none => (.ignored, expected)
  | some (seq, chk, payload) =>
    if compute_checksum (seqBytes seq ++ payload) ≠ chk then
      (.corruptDropped, expected)
    else if seq = expected then
      (.delivered seq payload, (expected + 1) % 65536)
    else if seq < expected ∨ (expected = 0 ∧ seq = 65536 - 1) then
      (.reacked ((expected + 65535) % 65536), expected)
    else
      (.reacked ((expected + 65535) % 65536), expected)

/-- C3: receiver in-order delivery. `recv` delivers a payload only for a
checksum-valid packet whose sequence equals the expected cursor, sending a
cumulative ACK for that sequence and advancing `expected` by exactly one
mod 65536; every checksum-valid packet with any other sequence is dropped
with a re-ACK of `(expected - 1) mod 65536` and leaves the receiver state
unchanged (nothing is buffered). -/
theorem claim_C3 (expected : Nat) (raw : List Nat) :
    (∀ ack p e', recvStep expected raw = (.delivered ack p, e') →
      ∃ seq chk payload, deserialize_packet raw = some (seq, chk, payload)
        ∧ compute_checksum (seqBytes seq ++ payload) = chk
        ∧ seq = expected ∧ ack = seq ∧ p = payload
        ∧ e' = (expected + 1) % 65536)
    ∧ (∀ seq chk payload, deserialize_packet raw = some (seq, chk, payload) →
        compute_checksum (seqBytes seq ++ payload) = chk →
        (seq = expected →
          recvStep expected raw
            = (.delivered seq payload, (expected + 1) % 65536))
        ∧ (seq ≠ expected →
          recvStep expected raw
            = (.reacked ((expected + 65535) % 65536), expected))) := by
  constructor
  · intro ack p e' hstep
    unfold recvStep at hstep
    match hdes : deserialize_packet raw with
    | none => rw [hdes] at hstep; simp at hstep
    | some (seq, chk, payload) =>
      rw [hdes] at hstep
      refine ⟨seq, chk, payload, rfl, ?_⟩
      by_cases hck : compute_checksum (seqBytes seq ++ payload) = chk
      · simp only [hck, ne_eq, not_true_eq_false, if_false] at hstep
        by_cases hseq : seq = expected
        · rw [if_pos hseq] at hstep
          simp only [Prod.mk.injEq, RecvAction.delivered.injEq] at hstep
          obtain ⟨⟨ha, hp⟩, he⟩ := hstep
          exact ⟨hck, hseq, ha.symm, hp.symm, he.symm⟩
        · simp only [if_neg hseq] at hstep
          split at hstep <;> simp at hstep
      · simp only [hck, ne_eq, not_false_eq_true, if_true] at hstep
        simp at hstep
  · intro seq chk payload hdes hck
    constructor
    · intro hseq
      subst hseq
      unfold recvStep
      rw [hdes]
      simp [hck]
    · intro hseq
      unfold recvStep
      rw [hdes]
      simp only [hck, ne_eq, not_true_eq_false, if_false, if_neg hseq]
      split <;> rfl

/-- Witness for C3: an in-order packet for `seq = 0` is delivered with
ACK 0, and a checksum-valid out-of-order packet for `seq = 1` is re-ACKed
with 65535 while `expected` stays 0. -/
theorem claim_C3_witness :
    recvStep 0 [0, 0, 248, 255, 7] = (.delivered 0 [7], 1)
      ∧ recvStep 0 [0, 1, 248, 254, 7] = (.reacked 65535, 0) :=
  ⟨((claim_C3 0 [0, 0, 248, 255, 7]).2 0 63743 [7] (by decide)
      (by decide)).1 (by decide),
    ((claim_C3 0 [0, 1, 248, 254, 7]).2 1 63742 [7] (by decide)
      (by decide)).2 (by decide)⟩

/-! ## Loss model (`LossModel.allow_packet`) -/

/-- Configuration of `LossModel.__init__`; all rates default to zero
(the ideal network). Rates and times are rationals; the stream of
`random.random()` draws is passed in as an oracle `rs` with draws taken
in program order. -/
structure LossModel where
  random_loss_rate : ℚ := 0
  burst_loss_rate : ℚ := 0
  burst_duration_ms : ℚ := 0
  burst_interval_ms : ℚ := 0

/-- Python's `%` on numbers with a positive right operand:
`a - b * floor(a / b)`, the representative in `[0, b)`. -/
def pymod (a b : ℚ) : ℚ := a - b * ⌊a / b⌋

/-- `LossModel.allow_packet`: burst logic first (guarded by
`burst_loss_rate > 0` and `burst_interval_ms > 0`), then the independent
random-loss draw; `rs 0` is the first `random.random()` call of this
invocation and `rs 1` the second (drawn only if the burst check ran). -/
def allow_packet (cfg : LossModel) (now : ℚ) (rs : ℕ → ℚ) : Bool :=
  if cfg.burst_loss_rate > 0 then
    if cfg.burst_interval_ms > 0 then
      if pymod now cfg.burst_interval_ms < cfg.burst_duration_ms then
        if rs 0 < cfg.burst_loss_rate then false
        else if rs 1 < cfg.random_loss_rate then false
        else true
      else if rs 0 < cfg.random_loss_rate then false
      else true
    else if rs 0 < cfg.random_loss_rate then false
    else true
  else if rs 0 < cfg.random_loss_rate then false
  else true

/-- C9: loss-model composition and the ideal-network default.
`allow_packet` returns `false` exactly when the burst mechanism triggers
(inside the burst window, with probability draw `rs 0 <
burst_loss_rate`) or the random mechanism triggers (its draw below
`random_loss_rate`); a packet is delivered only if neither mechanism
drops it; and the all-zero default configuration admits every packet. -/
theorem claim_C9 (cfg : LossModel) (now : ℚ) (rs : ℕ → ℚ)
    (h0 : 0 ≤ rs 0) :
    (allow_packet cfg now rs = false ↔
      ((cfg.burst_interval_ms > 0
          ∧ pymod now cfg.burst_interval_ms < cfg.burst_duration_ms
          ∧ rs 0 < cfg.burst_loss_rate)
        ∨ rs (if cfg.burst_loss_rate > 0 ∧ cfg.burst_interval_ms > 0
                ∧ pymod now cfg.burst_interval_ms < cfg.burst_duration_ms
              then 1 else 0)
            < cfg.random_loss_rate))
    ∧ allow_packet {} now rs = true := by
  constructor
  · unfold allow_packet
    by_cases hb : cfg.burst_loss_rate > 0
    · by_cases hi : cfg.burst_interval_ms > 0
      · by_cases hw : pymod now cfg.burst_interval_ms < cfg.burst_duration_ms
        · by_cases hr0 : rs 0 < cfg.burst_loss_rate
          · simp [hb, hi, hw, hr0]
          · by_cases hr1 : rs 1 < cfg.random_loss_rate <;>
              simp [hb, hi, hw, hr0, hr1]
        · by_cases hr : rs 0 < cfg.random_loss_rate <;>
            simp [hb, hi, hw, hr]
      · by_cases hr : rs 0 < cfg.random_loss_rate <;>
          simp [hb, hi, hr]
    · have hnb : ¬ rs 0 < cfg.burst_loss_rate := by
        intro h; exact hb (lt_of_le_of_lt h0 h)
      by_cases hr : rs 0 < cfg.random_loss_rate <;>
        simp [hb, hr, hnb]
  · unfold allow_packet
    have hz : ¬ rs 0 < ({} : LossModel).random_loss_rate := by
      simpa using not_lt_of_le h0
    simp [hz]

/-- A concrete bursty configuration used to witness C9. -/
def burstTestCfg : LossModel :=
  { random_loss_rate := 0, burst_loss_rate := 1,
    burst_duration_ms := 5, burst_interval_ms := 10 }

/-- Witness for C9: inside a burst window with `burst_loss_rate = 1` and
draws of `0`, the packet is dropped; the default model admits it. -/
theorem claim_C9_witness :
    (allow_packet burstTestCfg 3 (fun _ => 0) = false ↔
      ((burstTestCfg.burst_interval_ms > 0
          ∧ pymod 3 burstTestCfg.burst_interval_ms < burstTestCfg.burst_duration_ms
          ∧ (0 : ℚ) < burstTestCfg.burst_loss_rate)
        ∨ (0 : ℚ) < burstTestCfg.random_loss_rate))
    ∧ allow_packet {} 3 (fun _ => 0) = true := by
  have h := claim_C9 burstTestCfg 3 (fun _ => 0) le_rfl
  simpa using h

/-! ## Frame reassembly (`FrameReassemblyBuffer`) -/

/-- Byte strings of the streaming layer. -/
abbrev Bytes := List Nat

/-- Point update of a function-backed map (a Python dict entry write or,
with `none`, a `del`). -/
def upd {α : Type} (f : Nat → Option α) (k : Nat) (v : Option α) :
    Nat → Option α :=
  fun x => if x = k then v else f x

/-- One `_frames[frame_id]` record: chunk map, expected total, received
count (the `first_arrival` timestamp plays no role in any claim and is
omitted). -/
structure FrameEntry where
  chunks : Nat → Option Bytes
  total : Nat
  received : Nat

/-- `FrameReassemblyBuffer.add_chunk`: create the entry on first sight,
reconcile `total` to the max seen, and store the chunk only if its index
is new (in which case `received` is bumped). -/
def add_chunk (frames : Nat → Option FrameEntry)
    (frame_id chunk_idx total_chunks : Nat) (data : Bytes) :
    Nat → Option FrameEntry :=
  let e0 : FrameEntry :=
    match frames frame_id with
    | none => { chunks := fun _ => none, total := total_chunks, received := 0 }
    | some e => e
  let e1 : FrameEntry := { e0 with total := max e0.total total_chunks }
  let e2 : FrameEntry :=
    match e1.chunks chunk_idx with
    | none => { e1 with chunks := upd e1.chunks chunk_idx (some data),
                        received := e1.received + 1 }
    | some _ => e1
  upd frames frame_id (some e2)

/-- `FrameReassemblyBuffer.is_complete`. -/
def is_complete (frames : Nat → Option FrameEntry) (frame_id : Nat) : Bool :=
  match frames frame_id with
  | none => false
  | some e => decide (e.received ≥ e.total) && decide (0 < e.total)

/-- `FrameReassemblyBuffer.assemble_frame`: `none` on an absent or
incomplete frame (buffer untouched); on a complete frame, concatenate
chunks `0..total-1` (missing indices default to empty bytes), delete the
entry, and return the bytes. -/
def assemble_frame (frames : Nat → Option FrameEntry) (frame_id : Nat) :
    Option Bytes × (Nat → Option FrameEntry) :=
  match frames frame_id with
  | none => (none, frames)
  | some e =>
    if e.received < e.total ∨ e.total = 0 then (none, frames)
    else (some (((List.range e.total).map (fun i => (e.chunks i).getD [])).flatten),
          upd frames frame_id none)

/-- `FrameReassemblyBuffer.cleanup_older_than`: drop entries with
`frame_id < min_frame_id`. -/
def cleanup_older_than (frames : Nat → Option FrameEntry) (min_frame_id : Nat) :
    Nat → Option FrameEntry :=
  fun fid => if fid < min_frame_id then none else frames fid

/-- An operation against the reassembly buffer, for stating properties of
call sequences. -/
inductive BufOp where
  | addc (fid cidx total : Nat) (data : Bytes) : BufOp
  | asm (fid : Nat) : BufOp

/-- Run a sequence of buffer operations, collecting the result of every
`assemble_frame` call in order. -/
def runOps : (Nat → Option FrameEntry) → List BufOp →
    ((Nat → Option FrameEntry) × List (Option Bytes))
  | frames, [] => (frames, [])
  | frames, BufOp.addc f c t d :: rest => runOps (add_chunk frames f c t d) rest
  | frames, BufOp.asm f :: rest =>
    let step := assemble_frame frames f
    let tail := runOps step.2 rest
    (tail.1, step.1 :: tail.2)

/-- The empty reassembly buffer (`_frames = {}`). -/
def emptyFrames : Nat → Option FrameEntry := fun _ => none

/-- Entry chunk lookup: the bytes stored under `(frame_id, chunk_idx)`. -/
def entryChunk (frames : Nat → Option FrameEntry) (fid cidx : Nat) :
    Option Bytes :=
  match frames fid with
  | none => none
  | some e => e.chunks cidx

/-- The `received` counter of a frame entry, if present. -/
def entryReceived (frames : Nat → Option FrameEntry) (fid : Nat) : Option Nat :=
  (frames fid).map FrameEntry.received

/-- The reconciled `total` of a frame entry, if present. -/
def entryTotal (frames : Nat → Option FrameEntry) (fid : Nat) : Option Nat :=
  (frames fid).map FrameEntry.total

/-- Apply a list of `add_chunk` calls `(chunk_idx, total_chunks, data)`
for one frame id. -/
def applyAdds (frames : Nat → Option FrameEntry) (fid : Nat) :
    List (Nat × Nat × Bytes) → (Nat → Option FrameEntry)
  | [] => frames
  | (c, t, d) :: rest => applyAdds (add_chunk frames fid c t d) fid rest

theorem add_chunk_self (frames : Nat → Option FrameEntry)
    (fid cidx t' : Nat) (d' : Bytes) (e : FrameEntry) (b : Bytes)
    (he : frames fid = some e) (hb : e.chunks cidx = some b) :
    add_chunk frames fid cidx t' d' fid
      = some { e with total := max e.total t' } := by
  unfold add_chunk
  rw [he]
  simp only [hb]
  simp [upd]

theorem add_chunk_total (frames : Nat → Option FrameEntry)
    (fid cidx t' : Nat) (d' : Bytes) (e : FrameEntry)
    (he : frames fid = some e) :
    ∃ e', add_chunk frames fid cidx t' d' fid = some e'
      ∧ e'.total = max e.total t' := by
  match hc : e.chunks cidx with
  | none =>
    refine ⟨{ chunks := upd e.chunks cidx (some d'), total := max e.total t',
              received := e.received + 1 }, ?_, rfl⟩
    unfold add_chunk
    rw [he]
    simp [upd, hc]
  | some v =>
    refine ⟨{ e with total := max e.total t' }, ?_, rfl⟩
    unfold add_chunk
    rw [he]
    simp [upd, hc]

theorem applyAdds_total (fid : Nat) :
    ∀ (ops : List (Nat × Nat × Bytes)) (frames : Nat → Option FrameEntry)
      (e : FrameEntry), frames fid = some e →
      entryTotal (applyAdds frames fid ops) fid
        = some ((ops.map (fun p => p.2.1)).foldl max e.total) := by
  intro ops
  induction ops with
  | nil => intro frames e he; simp [applyAdds, entryTotal, he]
  | cons op rest ih =>
    intro frames e he
    obtain ⟨c, t, d⟩ := op
    obtain ⟨e', he', ht'⟩ := add_chunk_total frames fid c t d e he
    simpa [applyAdds, ht'] using ih (add_chunk frames fid c t d) e' he'

/-- C8: `add_chunk` idempotence and `total_chunks` reconciliation. Once
bytes are stored under `(frame_id, chunk_idx)`, a repeated `add_chunk`
for the same pair (any data, any declared total) leaves the stored bytes
and the received count unchanged (only `total` is reconciled to the max);
any other `add_chunk` call also preserves the stored bytes; and across
any sequence of `add_chunk` calls for a frame, the entry's `total` is the
maximum of every `total_chunks` value seen. -/
theorem claim_C8 (frames : Nat → Option FrameEntry) (fid cidx : Nat)
    (e : FrameEntry) (b : Bytes)
    (he : frames fid = some e) (hb : e.chunks cidx = some b) :
    (∀ t' d', entryChunk (add_chunk frames fid cidx t' d') fid cidx = some b
      ∧ entryReceived (add_chunk frames fid cidx t' d') fid = some e.received
      ∧ entryTotal (add_chunk frames fid cidx t' d') fid = some (max e.total t'))
    ∧ (∀ fid' cidx' t' d',
        entryChunk (add_chunk frames fid' cidx' t' d') fid cidx = some b)
    ∧ (∀ ops : List (Nat × Nat × Bytes),
        entryTotal (applyAdds frames fid ops) fid
          = some ((ops.map (fun p => p.2.1)).foldl max e.total)) := by
  refine ⟨?_, ?_, fun ops => applyAdds_total fid ops frames e he⟩
  · intro t' d'
    exact ⟨by simp [entryChunk, add_chunk_self frames fid cidx t' d' e b he hb, hb],
      by simp [entryReceived, add_chunk_self frames fid cidx t' d' e b he hb],
      by simp [entryTotal, add_chunk_self frames fid cidx t' d' e b he hb]⟩
  · intro fid' cidx' t' d'
    by_cases hf : fid' = fid
    · rw [hf]
      match hc : e.chunks cidx' with
      | some v =>
        have hstep : add_chunk frames fid cidx' t' d' fid
            = some { e with total := max e.total t' } := by
          unfold add_chunk
          rw [he]
          simp [upd, hc]
        simp [entryChunk, hstep, hb]
      | none =>
        have hne : cidx ≠ cidx' := fun h => by rw [h, hc] at hb; cases hb
        have hstep : add_chunk frames fid cidx' t' d' fid
            = some { chunks := upd e.chunks cidx' (some d'),
                     total := max e.total t', received := e.received + 1 } := by
          unfold add_chunk
          rw [he]
          simp [upd, hc]
        simp [entryChunk, hstep, upd, if_neg hne, hb]
    · have hfs : fid ≠ fid' := fun h => hf h.symm
      have hstep : add_chunk frames fid' cidx' t' d' fid = frames fid := by
        unfold add_chunk
        simp [upd, hfs]
      simp [entryChunk, hstep, he, hb]

theorem assemble_absent (frames : Nat → Option FrameEntry) (fid : Nat)
    (h : frames fid = none) : assemble_frame frames fid = (none, frames) := by
  unfold assemble_frame
  rw [h]

theorem runOps_asm_absent (fid : Nat) :
    ∀ (n : Nat) (frames : Nat → Option FrameEntry), frames fid = none →
      (runOps frames (List.replicate n (BufOp.asm fid))).2
        = List.replicate n none := by
  intro n
  induction n with
  | zero => intro frames _; rfl
  | succ n ih =>
    intro frames h
    have hasm := assemble_absent frames fid h
    simp only [List.replicate, runOps, hasm]
    exact congrArg (none :: ·) (ih frames h)

theorem assemble_cases (frames : Nat → Option FrameEntry) (fid : Nat) :
    assemble_frame frames fid = (none, frames)
    ∨ ((assemble_frame frames fid).1.isSome = true
        ∧ (assemble_frame frames fid).2 fid = none) := by
  unfold assemble_frame
  match h : frames fid with
  | none => exact Or.inl rfl
  | some e =>
    by_cases hcond : e.received < e.total ∨ e.total = 0
    · simp [hcond]
    · simp [hcond, upd]

theorem runOps_asm_once (fid : Nat) :
    ∀ (n : Nat) (frames : Nat → Option FrameEntry),
      ((runOps frames (List.replicate n (BufOp.asm fid))).2).countP
        (fun o => o.isSome) ≤ 1 := by
  intro n
  induction n with
  | zero => intro frames; simp [runOps]
  | succ n ih =>
    intro frames
    rcases assemble_cases frames fid with hc | ⟨hsome, hgone⟩
    · simp only [List.replicate, runOps, hc, List.countP_cons]
      simpa using ih frames
    · simp only [List.replicate, runOps, List.countP_cons]
      rw [runOps_asm_absent fid n _ hgone]
      have hrep : (List.replicate n (none : Option Bytes)).countP
          (fun o => o.isSome) = 0 := by
        simp [List.countP_eq_zero]
      simp [hrep, hsome]

/-- C7 counterexample: the claim's at-most-once property fails once
`add_chunk` calls may interleave: re-adding the single chunk of frame 7
after a successful `assemble_frame` makes a second call return the bytes
again — two non-none results for the same frame id. -/
theorem claim_C7_counterexample :
    (runOps emptyFrames
        [BufOp.addc 7 0 1 [9], BufOp.asm 7,
         BufOp.addc 7 0 1 [9], BufOp.asm 7]).2
      = [some [9], some [9]]
    ∧ ((runOps emptyFrames
        [BufOp.addc 7 0 1 [9], BufOp.asm 7,
         BufOp.addc 7 0 1 [9], BufOp.asm 7]).2).countP
          (fun o => o.isSome) = 2 := by
  exact ⟨rfl, rfl⟩

/-- C7 (amended): `assemble_frame` on an absent or incomplete frame
returns none and leaves the buffer unchanged; a successful call returns
the chunks concatenated in ascending index order `0..total-1` (missing
indices become empty bytes) and removes the entry, so any later
`assemble_frame` call with no intervening `add_chunk` for that frame id
returns none — over every sequence consisting only of `assemble_frame`
calls for the frame, at most one non-none result occurs. (Interleaved
`add_chunk` calls can re-create the entry and yield another result, which
is what the counterexample exhibits.) -/
theorem claim_C7 (frames : Nat → Option FrameEntry) (fid : Nat) :
    (frames fid = none → assemble_frame frames fid = (none, frames))
    ∧ (∀ e, frames fid = some e → (e.received < e.total ∨ e.total = 0) →
        assemble_frame frames fid = (none, frames))
    ∧ (∀ e, frames fid = some e → e.total ≤ e.received → e.total ≠ 0 →
        assemble_frame frames fid
          = (some (((List.range e.total).map
              (fun i => (e.chunks i).getD [])).flatten),
             upd frames fid none)
        ∧ (assemble_frame frames fid).2 fid = none
        ∧ assemble_frame ((assemble_frame frames fid).2) fid
            = (none, (assemble_frame frames fid).2))
    ∧ (∀ n, ((runOps frames (List.replicate n (BufOp.asm fid))).2).countP
        (fun o => o.isSome) ≤ 1) := by
  refine ⟨assemble_absent frames fid, ?_, ?_, fun n => runOps_asm_once fid n frames⟩
  · intro e he hcond
    unfold assemble_frame
    rw [he]
    simp [hcond]
  · intro e he hge hne
    have hcond : ¬ (e.received < e.total ∨ e.total = 0) := by
      push_neg
      omega
    have hstep : assemble_frame frames fid
        = (some (((List.range e.total).map
            (fun i => (e.chunks i).getD [])).flatten),
           upd frames fid none) := by
      unfold assemble_frame
      rw [he]
      simp [hcond]
    have hgone : (assemble_frame frames fid).2 fid = none := by
      rw [hstep]
      simp [upd]
    exact ⟨hstep, hgone, assemble_absent _ fid hgone⟩

/-- Witness for C7 at a concrete one-chunk frame. -/
theorem claim_C7_witness :
    assemble_frame (add_chunk emptyFrames 3 0 1 [5]) 3
      = (some [5], upd (add_chunk emptyFrames 3 0 1 [5]) 3 none)
    ∧ assemble_frame ((assemble_frame (add_chunk emptyFrames 3 0 1 [5]) 3).2) 3
      = (none, (assemble_frame (add_chunk emptyFrames 3 0 1 [5]) 3).2) := by
  have h := (claim_C7 (add_chunk emptyFrames 3 0 1 [5]) 3).2.2.1
    ⟨upd (fun _ => none) 0 (some [5]), 1, 1⟩ rfl (by decide) (by decide)
  exact ⟨h.1, h.2.2⟩

/-- Witness for C8: after storing chunk 0 of frame 1 with bytes `[7]` and
`total_chunks = 3`, a duplicate add with different data `[9]` and total 5
keeps the bytes and count, reconciles the total to 5, and a fold of
further adds reconciles to the overall maximum. -/
theorem claim_C8_witness :
    entryChunk (add_chunk (add_chunk emptyFrames 1 0 3 [7]) 1 0 5 [9]) 1 0
      = some [7]
    ∧ entryReceived (add_chunk (add_chunk emptyFrames 1 0 3 [7]) 1 0 5 [9]) 1
      = some 1
    ∧ entryTotal (add_chunk (add_chunk emptyFrames 1 0 3 [7]) 1 0 5 [9]) 1
      = some 5
    ∧ entryChunk (add_chunk (add_chunk emptyFrames 1 0 3 [7]) 1 1 2 [8]) 1 0
      = some [7]
    ∧ entryTotal (applyAdds (add_chunk emptyFrames 1 0 3 [7]) 1
        [(1, 2, [8]), (2, 9, [4])]) 1 = some 9 := by
  have h := claim_C8 (add_chunk emptyFrames 1 0 3 [7]) 1 0
    ⟨upd (fun _ => none) 0 (some [7]), 3, 1⟩ [7] rfl rfl
  exact ⟨(h.1 5 [9]).1, (h.1 5 [9]).2.1, (h.1 5 [9]).2.2,
    h.2.1 1 1 2 [8], h.2.2 [(1, 2, [8]), (2, 9, [4])]⟩

/-! ## FrameHandler: payload parsing, playback buffer, capacity policy -/

/-- Python-dict assignment on an association list: replace in place when
the key is present, append otherwise. -/
def dinsert : List (Nat × Bytes) → Nat → Bytes → List (Nat × Bytes)
  | [], k, v => [(k, v)]
  | (k', v') :: rest, k, v =>
    if k' = k then (k, v) :: rest else (k', v') :: dinsert rest k v

/-- The client-side state touched by `FrameHandler.parse_payload_and_add`. -/
structure Handler where
  reassembly : Nat → Option FrameEntry
  playback_buffer : List (Nat × Bytes)
  buffer_capacity_frames : Nat
  dropped_frames : Nat
  frames_reassembled_total : Nat
  received_frames_total : Nat
  eos_received : Bool

/-- `struct.unpack('!IHH', payload[:8])` plus the rest:
`(frame_id, chunk_idx, total_chunks, chunk_data)`. -/
def parseHeader (p : Bytes) : Nat × Nat × Nat × Bytes :=
  (((p.getD 0 0 * 256 + p.getD 1 0) * 256 + p.getD 2 0) * 256 + p.getD 3 0,
   p.getD 4 0 * 256 + p.getD 5 0,
   p.getD 6 0 * 256 + p.getD 7 0,
   p.drop 8)

/-- `FrameHandler.parse_payload_and_add`: ignore short payloads, record
the end-of-stream sentinel, otherwise add the chunk and, when the frame
completes, move the assembled bytes into the playback buffer if it has
room — else discard the new frame and count one drop. -/
def parse_payload_and_add (h : Handler) (payload : Bytes) : Handler :=
  if payload.length < 8 then h
  else
    let hdr := parseHeader payload
    let fid := hdr.1
    let cidx := hdr.2.1
    let total := hdr.2.2.1
    let data := hdr.2.2.2
    let h1 := { h with received_frames_total := h.received_frames_total + 1 }
    if fid = 0xFFFFFFFF ∧ total = 0xFFFF then
      { h1 with eos_received := true }
    else
      let frames1 := add_chunk h1.reassembly fid cidx total data
      if is_complete frames1 fid then
        match assemble_frame frames1 fid with
        | (some fb, frames2) =>
          if h1.playback_buffer.length < h1.buffer_capacity_frames then
            { h1 with reassembly := frames2,
                      playback_buffer := dinsert h1.playback_buffer fid fb,
                      frames_reassembled_total := h1.frames_reassembled_total + 1 }
          else
            { h1 with reassembly := frames2,
                      dropped_frames := h1.dropped_frames + 1 }
        | (none, frames2) => { h1 with reassembly := frames2 }
      else { h1 with reassembly := frames1 }

/-- Fresh client state (`FrameHandler.__init__`) with a given playback
capacity. -/
def initHandler (cap : Nat) : Handler :=
  { reassembly := emptyFrames, playback_buffer := [],
    buffer_capacity_frames := cap, dropped_frames := 0,
    frames_reassembled_total := 0, received_frames_total := 0,
    eos_received := false }

/-- Feed a sequence of GBN payloads to the handler. -/
def runParse (h : Handler) : List Bytes → Handler
  | [] => h
  | p :: rest => runParse (parse_payload_and_add h p) rest

theorem dinsert_length_le (k : Nat) (v : Bytes) :
    ∀ l : List (Nat × Bytes), (dinsert l k v).length ≤ l.length + 1 := by
  intro l
  induction l with
  | nil => simp [dinsert]
  | cons kv rest ih =>
    obtain ⟨k', v'⟩ := kv
    by_cases hk : k' = k
    · simp [dinsert, hk]
    · simp only [dinsert, if_neg hk, List.length_cons]
      omega

theorem assemble_of_complete (frames : Nat → Option FrameEntry) (fid : Nat)
    (hc : is_complete frames fid = true) :
    ∃ fb, assemble_frame frames fid = (some fb, upd frames fid none) := by
  unfold is_complete at hc
  match h : frames fid with
  | none => rw [h] at hc; cases hc
  | some e =>
    rw [h] at hc
    simp only [Bool.and_eq_true, decide_eq_true_eq] at hc
    refine ⟨((List.range e.total).map (fun i => (e.chunks i).getD [])).flatten, ?_⟩
    unfold assemble_frame
    rw [h]
    have hcond : ¬ (e.received < e.total ∨ e.total = 0) := by omega
    simp [hcond]

theorem parse_capacity_step (h : Handler) (p : Bytes)
    (hle : h.playback_buffer.length ≤ h.buffer_capacity_frames) :
    (parse_payload_and_add h p).playback_buffer.length
      ≤ h.buffer_capacity_frames
    ∧ (parse_payload_and_add h p).buffer_capacity_frames
      = h.buffer_capacity_frames := by
  simp only [parse_payload_and_add]
  split
  · exact ⟨hle, rfl⟩
  · split
    · exact ⟨hle, rfl⟩
    · split
      · split
        · split
          · rename_i hroom
            exact ⟨le_trans (dinsert_length_le _ _ _) (by omega), rfl⟩
          · exact ⟨hle, rfl⟩
        · exact ⟨hle, rfl⟩
      · exact ⟨hle, rfl⟩

theorem runParse_capacity : ∀ (ps : List Bytes) (h : Handler),
    h.playback_buffer.length ≤ h.buffer_capacity_frames →
    (runParse h ps).playback_buffer.length ≤ h.buffer_capacity_frames := by
  intro ps
  induction ps with
  | nil => intro h hle; exact hle
  | cons p rest ih =>
    intro h hle
    have hstep := parse_capacity_step h p hle
    have htail := ih (parse_payload_and_add h p) (hstep.2.symm ▸ hstep.1)
    rw [hstep.2] at htail
    simpa [runParse] using htail

/-- C10: playback-buffer capacity and the full-buffer policy. The
playback buffer never exceeds `buffer_capacity_frames` (per step and
along any payload trace from a fresh handler), and when a frame finishes
reassembly while the buffer is full, the new frame is discarded — the
buffer itself is left untouched (no eviction), `dropped_frames` is
incremented by one, and `frames_reassembled_total` is not incremented. -/
theorem claim_C10 (h : Handler) (payload : Bytes) :
    (h.playback_buffer.length ≤ h.buffer_capacity_frames →
      (parse_payload_and_add h payload).playback_buffer.length
          ≤ h.buffer_capacity_frames
      ∧ (parse_payload_and_add h payload).buffer_capacity_frames
          = h.buffer_capacity_frames)
    ∧ (∀ cap ps, (runParse (initHandler cap) ps).playback_buffer.length ≤ cap)
    ∧ (¬ h.playback_buffer.length < h.buffer_capacity_frames →
        ¬ payload.length < 8 →
        ¬ ((parseHeader payload).1 = 0xFFFFFFFF
            ∧ (parseHeader payload).2.2.1 = 0xFFFF) →
        is_complete (add_chunk h.reassembly (parseHeader payload).1
          (parseHeader payload).2.1 (parseHeader payload).2.2.1
          (parseHeader payload).2.2.2) (parseHeader payload).1 = true →
        (parse_payload_and_add h payload).playback_buffer = h.playback_buffer
        ∧ (parse_payload_and_add h payload).dropped_frames
            = h.dropped_frames + 1
        ∧ (parse_payload_and_add h payload).frames_reassembled_total
            = h.frames_reassembled_total) := by
  refine ⟨parse_capacity_step h payload,
    fun cap ps => runParse_capacity ps (initHandler cap) (by simp [initHandler]),
    ?_⟩
  intro hfull hlen hsent hcomp
  obtain ⟨fb, hasm⟩ := assemble_of_complete _ _ hcomp
  simp only [parse_payload_and_add, if_neg hlen, if_neg hsent, hcomp, if_true,
    hasm, if_neg hfull]
  exact ⟨trivial, trivial, trivial⟩

/-- Witness for C10: with capacity 0, completing a one-chunk frame leaves
the playback buffer empty, counts one dropped frame, and reassembles
nothing. -/
theorem claim_C10_witness :
    (parse_payload_and_add (initHandler 0)
        [0, 0, 0, 1, 0, 0, 0, 1, 42]).playback_buffer = []
    ∧ (parse_payload_and_add (initHandler 0)
        [0, 0, 0, 1, 0, 0, 0, 1, 42]).dropped_frames = 1
    ∧ (parse_payload_and_add (initHandler 0)
        [0, 0, 0, 1, 0, 0, 0, 1, 42]).frames_reassembled_total = 0 :=
  (claim_C10 (initHandler 0) [0, 0, 0, 1, 0, 0, 0, 1, 42]).2.2
    (by decide) (by decide) (by decide) (by decide)

/-! ## Playback loop (`FrameHandler._playback_loop`): one display cycle

One iteration of the outer `while` is modelled with pop results supplied
as oracles: `first` is the scheduled-time pop, `gracePops` the pops of
the jitter grace window (the list length is however many polls the
50 ms/half-interval budget allowed), and `stallPops` the pops of the
stall loop (an exhausted list models the stop flag being set). The
result is `(dropped_frames increments in this cycle, displayed frame)`. -/

/-- The grace-window poll: first successful pop, if any. -/
def firstSome : List (Option Bytes) → Option Bytes
  | [] => none
  | some f :: _ => some f
  | none :: rest => firstSome rest

/-- The stall loop: pop; on success exit with the frame; otherwise, if
end-of-stream has been observed, count one drop and exit empty; else keep
polling. -/
def stallWait (eos : Bool) : List (Option Bytes) → Nat × Option Bytes
  | [] => (0, none)
  | some f :: _ => (0, some f)
  | none :: rest => if eos then (1, none) else stallWait eos rest

/-- One playback cycle of `_playback_loop`: scheduled pop, grace window,
stall loop, then the final `if frame is not None: display else:
dropped_frames += 1`. -/
def playbackCycle (first : Option Bytes) (gracePops stallPops : List (Option Bytes))
    (eos : Bool) : Nat × Option Bytes :=
  match first with
  | some f => (0, some f)
  | none =>
    match firstSome gracePops with
    | some f => (0, some f)
    | none =>
      let sw := stallWait eos stallPops
      match sw.2 with
      | some f => (sw.1, some f)
      | none => (sw.1 + 1, none)

/-- C6 (code bug): dropped-frame accounting. A cycle that displays a
frame increments `dropped_frames` zero times and a non-delivered cycle
without end-of-stream (stop-flag exit) increments it exactly once, but in
the claimed case where end-of-stream has been observed and the frame
never arrives, the code increments the counter twice — once inside the
EOS branch of the stall loop and once more in the final
`frame is None` branch — contradicting "exactly once". -/
theorem claim_C6 :
    (∀ (f : Bytes) gracePops stallPops eos,
      playbackCycle (some f) gracePops stallPops eos = (0, some f))
    ∧ playbackCycle none [] [] false = (1, none)
    ∧ playbackCycle none [] [none, none, none] true = (2, none) := by
  exact ⟨fun f gracePops stallPops eos => rfl, rfl, rfl⟩

/-! ## GBN sender (`GBNSender`) -/

/-- The sender's metrics dict (counters only; `start_time` is omitted). -/
structure SenderMetrics where
  packets_sent : Nat
  packets_delivered : Nat
  packets_lost : Nat
  retransmissions : Nat
  timeouts : Nat
  bytes_sent : Nat
deriving DecidableEq

/-- `GBNSender` state: window cursors, the unacked-packet dict (insertion
order preserved, as in a Python dict), the single retransmission timer
(`timerOn`), and metrics. -/
structure SenderState where
  send_base : Nat
  next_seq_num : Nat
  window_size : Nat
  unacked_buffer : List (Nat × Bytes)
  timerOn : Bool
  metrics : SenderMetrics
deriving DecidableEq

/-- `GBNSender.__init__`: window size 5, cursors at 0, empty buffer, no
timer. -/
def initSender : SenderState :=
  { send_base := 0, next_seq_num := 0, window_size := 5,
    unacked_buffer := [], timerOn := false,
    metrics := ⟨0, 0, 0, 0, 0, 0⟩ }

/-- Dict lookup `unacked_buffer[seq]`. -/
def dget (l : List (Nat × Bytes)) (k : Nat) : Option Bytes :=
  (l.find? (fun kv => kv.1 == k)).map Prod.snd

/-- `GBNSender.send_data`: serialize with a checksum over the payload,
store in `unacked_buffer`, bump `packets_sent`, consult the loss model
(`allow`; a dropped packet is merely not emitted), start the timer if the
window was empty, advance `next_seq_num` mod 65536. The source performs
no window-size check here. Returns the new state and the datagram put on
the wire, if any. -/
def send_data (s : SenderState) (data : Bytes) (allow : Bool) :
    SenderState × Option Bytes :=
  let ck := compute_checksum data
  let packet := seqBytes s.next_seq_num ++ seqBytes ck ++ data
  let s1 := { s with
    unacked_buffer := dinsert s.unacked_buffer s.next_seq_num packet,
    metrics := { s.metrics with packets_sent := s.metrics.packets_sent + 1 } }
  let out := if allow then some packet else none
  let s2 := if s1.send_base = s1.next_seq_num then { s1 with timerOn := true }
            else s1
  ({ s2 with next_seq_num := (s2.next_seq_num + 1) % 65536 }, out)

/-- `(k - base) % 65536` in Python integer semantics. -/
def modOff (base k : Nat) : Nat := (k + 65536 - base % 65536) % 65536

/-- `GBNSender.receive_ack`: the method body in the source is just
`pass` — the ack number is ignored and the sender state is returned
unchanged (no buffer removal, no `send_base` advance, no timer action). -/
def receive_ack (s : SenderState) (_ack : Nat) : SenderState := s

/-- The retransmission loop body of `GBNSender.handle_timeout`: for each
key (in the iteration order of `sorted(...)`), bump `packets_sent`,
consult the loss model (`allows i` for the i-th retransmission), and on
delivery bump `packets_delivered`/`bytes_sent`, else `packets_lost`.
Returns the final metrics and the `(seq, delivered?)` log in order. -/
def resendLoop (buf : List (Nat × Bytes)) (allows : Nat → Bool) :
    List Nat → Nat → SenderMetrics → SenderMetrics × List (Nat × Bool)
  | [], _, m => (m, [])
  | k :: ks, i, m =>
    let m1 := { m with packets_sent := m.packets_sent + 1 }
    if allows i then
      let pkt := (dget buf k).getD []
      let m2 := { m1 with packets_delivered := m1.packets_delivered + 1,
                          bytes_sent := m1.bytes_sent + pkt.length }
      let rest := resendLoop buf allows ks (i + 1) m2
      (rest.1, (k, true) :: rest.2)
    else
      let m2 := { m1 with packets_lost := m1.packets_lost + 1 }
      let rest := resendLoop buf allows ks (i + 1) m2
      (rest.1, (k, false) :: rest.2)

/-- `GBNSender.handle_timeout`: bump the timeout and retransmission
counters, resend every buffered packet iterating over
`sorted(unacked_buffer.keys())` (numeric ascending order), then restart
the timer unconditionally. -/
def handle_timeout (s : SenderState) (allows : Nat → Bool) :
    SenderState × List (Nat × Bool) :=
  let m0 := { s.metrics with
    timeouts := s.metrics.timeouts + 1,
    retransmissions := s.metrics.retransmissions + 1 }
  let ks := List.insertionSort (· ≤ ·) (s.unacked_buffer.map Prod.fst)
  let r := resendLoop s.unacked_buffer allows ks 0 m0
  ({ s with metrics := r.1, timerOn := true }, r.2)

/-- C1 (code bug): the sender never enforces the window bound. Six
consecutive `send_data` calls from the initial state are all accepted and
stored (`unacked_buffer` grows to 6 entries) and leave
`(next_seq_num - send_base) mod 65536 = 6 > window_size = 5`, violating
the claimed invariant and the claimed refuse-or-block behavior. -/
theorem claim_C1 :
    ((fun s => (send_data s [0] true).1)^[6] initSender).window_size = 5
    ∧ modOff ((fun s => (send_data s [0] true).1)^[6] initSender).send_base
        ((fun s => (send_data s [0] true).1)^[6] initSender).next_seq_num = 6
    ∧ ((fun s => (send_data s [0] true).1)^[6] initSender).unacked_buffer.length
        = 6
    ∧ ¬ (modOff ((fun s => (send_data s [0] true).1)^[6] initSender).send_base
          ((fun s => (send_data s [0] true).1)^[6] initSender).next_seq_num
        ≤ ((fun s => (send_data s [0] true).1)^[6] initSender).window_size) := by
  exact ⟨by decide, by decide, by decide, by decide⟩

/-- C2 (code bug): cumulative ACK processing is unimplemented.
`receive_ack` is a `pass` no-op: for every sender state and every ack
number it leaves the state unchanged. In particular, after sending
packet 0 from the initial state, the in-window cumulative ACK 0 — which
the claim says must remove entry 0 from `unacked_buffer`, advance
`send_base` past it, and stop the timer — removes nothing, leaves
`send_base` at 0, and leaves the timer running. -/
theorem claim_C2 :
    receive_ack (send_data initSender [0] true).1 0
      = (send_data initSender [0] true).1
    ∧ (receive_ack (send_data initSender [0] true).1 0).unacked_buffer.length
        = 1
    ∧ (receive_ack (send_data initSender [0] true).1 0).send_base = 0
    ∧ (receive_ack (send_data initSender [0] true).1 0).timerOn = true
    ∧ (∀ (s : SenderState) (ack : Nat), receive_ack s ack = s) :=
  ⟨rfl, by decide, by decide, by decide, fun s ack => rfl⟩

/-- C5 counterexample: with a wrapped window (`send_base = 65535`,
buffered sequences 65535 then 0), `handle_timeout` retransmits in plain
numeric order `[0, 65535]`, but the ascending modular send order from
`send_base` is `[65535, 0]` — the post-wraparound packet is resent
first, refuting the claimed modular ordering. -/
theorem claim_C5_counterexample :
    ((handle_timeout ⟨65535, 1, 5, [(65535, [1]), (0, [2])], true,
        ⟨0, 0, 0, 0, 0, 0⟩⟩ (fun _ => true)).2.map Prod.fst = [0, 65535])
    ∧ (List.insertionSort (fun a b => modOff 65535 a ≤ modOff 65535 b)
        ([(65535, ([1] : Bytes)), (0, [2])].map Prod.fst) = [65535, 0])
    ∧ ([0, 65535] ≠ ([65535, 0] : List Nat)) := by
  exact ⟨by decide, by decide, by decide⟩

theorem resendLoop_fst (buf : List (Nat × Bytes)) (allows : Nat → Bool) :
    ∀ (ks : List Nat) (i : Nat) (m : SenderMetrics),
      ((resendLoop buf allows ks i m).2).map Prod.fst = ks := by
  intro ks
  induction ks with
  | nil => intro i m; rfl
  | cons k ks ih =>
    intro i m
    unfold resendLoop
    by_cases ha : allows i <;> simp [ha, ih]

theorem resendLoop_snd (buf : List (Nat × Bytes)) (allows : Nat → Bool) :
    ∀ (ks : List Nat) (i : Nat) (m : SenderMetrics),
      ((resendLoop buf allows ks i m).2).map Prod.snd
        = (List.range ks.length).map (fun t => allows (i + t)) := by
  intro ks
  induction ks with
  | nil => intro i m; rfl
  | cons k ks ih =>
    intro i m
    have hshift : (List.range (ks.length + 1)).map (fun t => allows (i + t))
        = allows i :: (List.range ks.length).map (fun t => allows (i + 1 + t)) := by
      rw [List.range_succ_eq_map]
      simp only [List.map_cons, List.map_map, Nat.add_zero]
      refine congrArg (allows i :: ·) (List.map_congr_left ?_)
      intro t _
      simp [Function.comp]
      exact congrArg allows (by omega)
    unfold resendLoop
    by_cases ha : allows i <;>
      simp [ha, ih, List.length_cons, hshift]

theorem resendLoop_counters (buf : List (Nat × Bytes)) (allows : Nat → Bool) :
    ∀ (ks : List Nat) (i : Nat) (m : SenderMetrics),
      ((resendLoop buf allows ks i m).1).timeouts = m.timeouts
      ∧ ((resendLoop buf allows ks i m).1).retransmissions = m.retransmissions := by
  intro ks
  induction ks with
  | nil => intro i m; exact ⟨rfl, rfl⟩
  | cons k ks ih =>
    intro i m
    unfold resendLoop
    by_cases ha : allows i <;> simp [ha, ih]

/-- C5 (amended): on a timer expiry `handle_timeout` retransmits every
packet currently in `unacked_buffer` exactly once, in ascending *numeric*
sequence order (`sorted(...)` — this equals ascending modular send order
only while the window does not wrap 65535→0; across a wraparound the
post-wrap sequences are resent first), each retransmission independently
subject to the loss model (the i-th resend uses the i-th verdict);
restarts the timer unconditionally; and increments the timeout and
retransmission counters by one each. -/
theorem claim_C5 (s : SenderState) (allows : Nat → Bool) :
    ((handle_timeout s allows).2.map Prod.fst
      = List.insertionSort (· ≤ ·) (s.unacked_buffer.map Prod.fst))
    ∧ List.Sorted (· ≤ ·) ((handle_timeout s allows).2.map Prod.fst)
    ∧ ((handle_timeout s allows).2.map Prod.fst).Perm
        (s.unacked_buffer.map Prod.fst)
    ∧ ((handle_timeout s allows).2.map Prod.snd
      = (List.range s.unacked_buffer.length).map allows)
    ∧ (handle_timeout s allows).1.timerOn = true
    ∧ (handle_timeout s allows).1.metrics.timeouts = s.metrics.timeouts + 1
    ∧ (handle_timeout s allows).1.metrics.retransmissions
        = s.metrics.retransmissions + 1 := by
  have hfst := resendLoop_fst s.unacked_buffer allows
    (List.insertionSort (· ≤ ·) (s.unacked_buffer.map Prod.fst)) 0
    { s.metrics with timeouts := s.metrics.timeouts + 1,
                     retransmissions := s.metrics.retransmissions + 1 }
  have hsnd := resendLoop_snd s.unacked_buffer allows
    (List.insertionSort (· ≤ ·) (s.unacked_buffer.map Prod.fst)) 0
    { s.metrics with timeouts := s.metrics.timeouts + 1,
                     retransmissions := s.metrics.retransmissions + 1 }
  have hcnt := resendLoop_counters s.unacked_buffer allows
    (List.insertionSort (· ≤ ·) (s.unacked_buffer.map Prod.fst)) 0
    { s.metrics with timeouts := s.metrics.timeouts + 1,
                     retransmissions := s.metrics.retransmissions + 1 }
  have hlen : (List.insertionSort (· ≤ ·)
      (s.unacked_buffer.map Prod.fst)).length
        = s.unacked_buffer.length := by
    rw [(List.perm_insertionSort (· ≤ ·) (s.unacked_buffer.map Prod.fst)).length_eq]
    exact List.length_map _ _
  have htx : (handle_timeout s allows).2.map Prod.fst
      = List.insertionSort (· ≤ ·) (s.unacked_buffer.map Prod.fst) := hfst
  have htx2 : (handle_timeout s allows).2.map Prod.snd
      = (List.range (List.insertionSort (· ≤ ·)
          (s.unacked_buffer.map Prod.fst)).length).map
            (fun t => allows (0 + t)) := hsnd
  refine ⟨htx, ?_, ?_, ?_, rfl, hcnt.1, hcnt.2⟩
  · rw [htx]
    exact List.sorted_insertionSort (· ≤ ·) (s.unacked_buffer.map Prod.fst)
  · rw [htx]
    exact List.perm_insertionSort (· ≤ ·) (s.unacked_buffer.map Prod.fst)
  · rw [htx2, hlen]
    exact List.map_congr_left (fun t _ => congrArg allows (Nat.zero_add t))

end Streaming
